import Mathlib

/-!
Verification of the core of the `zoog` Ogg Opus rewriting toolkit.

The development shallowly embeds the Rust sources:
* `src/escaping.rs` — vorbiscomment-style escape codec,
* `src/header/discrete_comment_list.rs` — the ordered, case-insensitive comment list,
* `src/bin/opuscomment.rs` — the `-d`-pattern matcher (`ValueMatch`, `KeyValueMatch`),
* `src/opus_header.rs` — the Opus identification-header view,
* `src/header_rewriter.rs` — the three-state stream rewriter,
* `src/volume_analyzer.rs` — the loudness analyzer's decode state.

Strings are embedded as `List Char` (Rust `char` iteration), byte buffers as
`List Nat` with every byte `< 256`.  Functions of the repository that are not
present under `src/` (the crate's `error`, `opus` codec and `header` validation
modules) are modelled from the specification and carry a doc comment saying so.
-/

namespace Zoog

/-- Error enum of the crate (`error.rs` is not in the sources; the constructors
below are the ones referenced by the files under `src/`, with meanings as in
the specification §7). -/
inductive Error where
  | MissingOpusStream
  | MissingCommentHeader
  | MalformedCommentHeader
  | InvalidCommentFieldName
  | MissingCommentSeparator
  | GainOutOfBounds
  | InvalidChannelCount (n : Nat)
  | WriteError
  deriving DecidableEq, Repr

/-! ## Escape codec (`src/escaping.rs`) -/

/-- `ESCAPE_CHAR` of `escaping.rs`. -/
def ESCAPE_CHAR : Char := '\\'

/-- `ESCAPED_CHARS` of `escaping.rs`: NUL, LF, CR and backslash. -/
def ESCAPED_CHARS : List Char := [Char.ofNat 0, '\n', Char.ofNat 13, '\\']

/-- The per-character escaping table of `EscapingIterator::next`: the character
stored into `delayed` (emitted after the escape character), or `none` when the
character passes through unescaped. -/
def escapeOf (c : Char) : Option Char :=
  if c = Char.ofNat 0 then some '0'
  else if c = '\n' then some 'n'
  else if c = Char.ofNat 13 then some 'r'
  else if c = '\\' then some '\\'
  else none

/-- The character stream produced by `EscapingIterator` over the input. -/
def escapeList : List Char → List Char
  | [] => []
  | c :: rest =>
    match escapeOf c with
    | some d => ESCAPE_CHAR :: d :: escapeList rest
    | none => c :: escapeList rest

/-- `escape_str` of `escaping.rs`: the input is returned unchanged unless it
contains one of `ESCAPED_CHARS`, in which case the escaping iterator runs. -/
def escape_str (value : List Char) : List Char :=
  if value.any (fun c => c ∈ ESCAPED_CHARS) then escapeList value else value

/-- `EscapeDecodeError` of `escaping.rs`. -/
inductive EscapeDecodeError where
  | TrailingBackslash
  | InvalidEscape (c : Char)
  deriving DecidableEq, Repr

/-- The per-character unescaping table of the `unescape_str` loop: the
replacement pushed for `\c`, or `none` when `c` is an invalid escape. -/
def unescapeOf (c : Char) : Option Char :=
  if c = '0' then some (Char.ofNat 0)
  else if c = 'n' then some '\n'
  else if c = 'r' then some (Char.ofNat 13)
  else if c = '\\' then some '\\'
  else none

/-- The main loop of `unescape_str`, with the `is_escape` flag made explicit.
The Rust loop accumulates into a `String`; here the result is produced by
prepending, which builds the same list and hits the same first error. -/
def unescapeGo : Bool → List Char → Except EscapeDecodeError (List Char)
  | true, [] => .error .TrailingBackslash
  | false, [] => .ok []
  | true, c :: rest =>
    match unescapeOf c with
    | some d => (unescapeGo false rest).map (fun t => d :: t)
    | none => .error (.InvalidEscape c)
  | false, c :: rest =>
    if c = ESCAPE_CHAR then unescapeGo true rest
    else (unescapeGo false rest).map (fun t => c :: t)

/-- `unescape_str` of `escaping.rs`: inputs without a backslash are returned
unchanged; otherwise the decoding loop runs. -/
def unescape_str (value : List Char) : Except EscapeDecodeError (List Char) :=
  if ¬ value.contains ESCAPE_CHAR then .ok value else unescapeGo false value

/-- Left-to-right scan for the first escaping defect of an input: with the
escape flag set, end of input is a trailing backslash and an invalid escape
character is an invalid escape; the first defect wins.  This is the
specification-side notion of "ends in a lone unescaped backslash" /
"a backslash is followed by a character outside {0,n,r,\}". -/
def firstDefectGo : Bool → List Char → Option EscapeDecodeError
  | true, [] => some .TrailingBackslash
  | false, [] => none
  | true, c :: rest =>
    match unescapeOf c with
    | some _ => firstDefectGo false rest
    | none => some (.InvalidEscape c)
  | false, c :: rest =>
    if c = ESCAPE_CHAR then firstDefectGo true rest else firstDefectGo false rest

/-- The first escaping defect of an input, if any. -/
def firstDefect (value : List Char) : Option EscapeDecodeError :=
  firstDefectGo false value

theorem unescapeGo_eq_defect (s : List Char) :
    ∀ b : Bool, (firstDefectGo b s = none → ∃ t, unescapeGo b s = .ok t) ∧
      (∀ e, firstDefectGo b s = some e → unescapeGo b s = .error e) := by
  induction s with
  | nil =>
    intro b
    cases b <;> simp [firstDefectGo, unescapeGo]
  | cons c rest ih =>
    intro b
    cases b with
    | true =>
      constructor
      · intro h
        simp only [firstDefectGo] at h
        cases hu : unescapeOf c with
        | none => simp [hu] at h
        | some d =>
          simp only [hu] at h
          obtain ⟨t, ht⟩ := (ih false).1 h
          exact ⟨d :: t, by simp [unescapeGo, hu, ht, Except.map]⟩
      · intro e h
        simp only [firstDefectGo] at h
        cases hu : unescapeOf c with
        | none =>
          simp only [hu] at h
          cases h
          simp [unescapeGo, hu]
        | some d =>
          simp only [hu] at h
          have := (ih false).2 e h
          simp [unescapeGo, hu, this, Except.map]
    | false =>
      by_cases hc : c = ESCAPE_CHAR
      · constructor
        · intro h
          simp only [firstDefectGo, hc, if_pos rfl] at h
          obtain ⟨t, ht⟩ := (ih true).1 h
          exact ⟨t, by simp [unescapeGo, hc, ht]⟩
        · intro e h
          simp only [firstDefectGo, hc, if_pos rfl] at h
          have := (ih true).2 e h
          simp [unescapeGo, hc, this]
      · constructor
        · intro h
          simp only [firstDefectGo, if_neg hc] at h
          obtain ⟨t, ht⟩ := (ih false).1 h
          exact ⟨c :: t, by simp [unescapeGo, if_neg hc, ht, Except.map]⟩
        · intro e h
          simp only [firstDefectGo, if_neg hc] at h
          have := (ih false).2 e h
          simp [unescapeGo, if_neg hc, this, Except.map]

theorem firstDefect_of_no_backslash (s : List Char) (h : ESCAPE_CHAR ∉ s) :
    firstDefect s = none := by
  unfold firstDefect
  induction s with
  | nil => simp [firstDefectGo]
  | cons c rest ih =>
    simp only [List.mem_cons, not_or] at h
    have hc : ¬ c = ESCAPE_CHAR := fun hceq => h.1 hceq.symm
    simp [firstDefectGo, if_neg hc, ih h.2]

theorem unescapeOf_escapeOf (c d : Char) (h : escapeOf c = some d) : unescapeOf d = some c := by
  unfold escapeOf at h
  split_ifs at h with h1 h2 h3 h4 <;> cases h <;> subst_vars <;> decide

theorem escapeOf_eq_none_iff (c : Char) : escapeOf c = none ↔ c ∉ ESCAPED_CHARS := by
  unfold escapeOf ESCAPED_CHARS
  split_ifs with h1 h2 h3 h4 <;> simp_all

theorem unescapeGo_escapeList (s : List Char) : unescapeGo false (escapeList s) = .ok s := by
  induction s with
  | nil => rfl
  | cons c rest ih =>
    cases he : escapeOf c with
    | some d =>
      have hud := unescapeOf_escapeOf c d he
      simp [escapeList, he, unescapeGo, ESCAPE_CHAR, hud, ih, Except.map]
    | none =>
      have hc : ¬ c = ESCAPE_CHAR := by
        intro hceq
        rw [hceq] at he
        simp [escapeOf, ESCAPE_CHAR] at he
      simp [escapeList, he, unescapeGo, if_neg hc, ih, Except.map]

theorem backslash_mem_escapeList (s : List Char)
    (h : ∃ c ∈ s, c ∈ ESCAPED_CHARS) : ESCAPE_CHAR ∈ escapeList s := by
  induction s with
  | nil => simp at h
  | cons c rest ih =>
    cases he : escapeOf c with
    | some d => simp [escapeList, he]
    | none =>
      have hc : c ∉ ESCAPED_CHARS := (escapeOf_eq_none_iff c).mp he
      obtain ⟨x, hx, hxin⟩ := h
      rcases List.mem_cons.mp hx with rfl | hx2
      · exact absurd hxin hc
      · have := ih ⟨x, hx2, hxin⟩
        simp [escapeList, he, List.mem_cons, this]

/-- C6: for every string `s`, `unescape_str (escape_str s)` succeeds and
returns `s`; and `escape_str` is the identity on every string containing none
of NUL, LF, CR, backslash. -/
theorem C6_escape_round_trip :
    (∀ s : List Char, unescape_str (escape_str s) = .ok s) ∧
    (∀ s : List Char, (∀ c ∈ s, c ∉ ESCAPED_CHARS) → escape_str s = s) := by
  constructor
  · intro s
    by_cases hs : ∃ c ∈ s, c ∈ ESCAPED_CHARS
    · have hany : s.any (fun c => c ∈ ESCAPED_CHARS) = true := by
        simpa [List.any_eq_true] using hs
      have hb : ESCAPE_CHAR ∈ escapeList s := backslash_mem_escapeList s hs
      simp [escape_str, hany, unescape_str, hb, unescapeGo_escapeList s]
    · have hany : ¬ s.any (fun c => c ∈ ESCAPED_CHARS) = true := by
        simpa [List.any_eq_true] using hs
      have hnb : ESCAPE_CHAR ∉ s := fun hmem => hs ⟨ESCAPE_CHAR, hmem, by decide⟩
      simp [escape_str, hany, unescape_str, hnb]
  · intro s h
    have hany : ¬ s.any (fun c => c ∈ ESCAPED_CHARS) = true := by
      rw [List.any_eq_true]
      rintro ⟨c, hcmem, hcin⟩
      exact h c hcmem (by simpa using hcin)
    simp [escape_str, hany]

/-- Witness for C6 at the concrete inputs `"f\n"` and `"fo"`. -/
theorem C6_escape_round_trip_witness :
    unescape_str (escape_str ['f', '\n']) = .ok ['f', '\n'] ∧
      escape_str ['f', 'o'] = ['f', 'o'] :=
  ⟨C6_escape_round_trip.1 ['f', '\n'], C6_escape_round_trip.2 ['f', 'o'] (by decide)⟩

/-- C7: `unescape_str` fails with `TrailingBackslash` when the scan of the
input ends in a lone unescaped backslash, fails with `InvalidEscape c` when
the first defect is a backslash followed by a character `c` outside
`{0, n, r, \}`, succeeds on every input with no defect, and in particular
fails with `TrailingBackslash` on `"foo\"` and with `InvalidEscape 'q'` on
`"foo\q"`. -/
theorem C7_unescape_errors :
    (∀ s : List Char, firstDefect s = none → ∃ t, unescape_str s = .ok t) ∧
    (∀ s : List Char, ∀ e, firstDefect s = some e → unescape_str s = .error e) ∧
    unescape_str ['f', 'o', 'o', '\\'] = .error .TrailingBackslash ∧
    unescape_str ['f', 'o', 'o', '\\', 'q'] = .error (.InvalidEscape 'q') := by
  refine ⟨?_, ?_, by rfl, by rfl⟩
  · intro s h
    by_cases hb : ESCAPE_CHAR ∈ s
    · have := (unescapeGo_eq_defect s false).1 h
      simpa [unescape_str, hb] using this
    · exact ⟨s, by simp [unescape_str, hb]⟩
  · intro s e h
    have hb : ESCAPE_CHAR ∈ s := by
      by_contra hnb
      rw [firstDefect_of_no_backslash s hnb] at h
      cases h
    have := (unescapeGo_eq_defect s false).2 e h
    simpa [unescape_str, hb] using this

/-- Witness for C7 at the concrete input `"a\"`. -/
theorem C7_unescape_errors_witness :
    unescape_str ['a', '\\'] = .error .TrailingBackslash :=
  C7_unescape_errors.2.1 ['a', '\\'] .TrailingBackslash (by decide)

/-! ## Comment list (`src/header/discrete_comment_list.rs`) -/

/-- ASCII lower-case folding of one character (`to_ascii_lowercase`). -/
def asciiLower (c : Char) : Char :=
  if 'A' ≤ c ∧ c ≤ 'Z' then Char.ofNat (c.toNat + 32) else c

/-- `DiscreteCommentList::keys_equal`: `eq_ignore_ascii_case` on the keys. -/
def keys_equal (k1 k2 : List Char) : Bool :=
  k1.map asciiLower == k2.map asciiLower

/-- Modelled from the spec: `validate_comment_field_name` lives in the crate's
`header` module, which is not under `src/`.  Per §3 a key must be non-empty
and every byte in `0x20..=0x7E` except `=` (0x3D); otherwise the key is
rejected with `InvalidCommentFieldName`. -/
def validate_comment_field_name (key : List Char) : Except Error Unit :=
  if key ≠ [] ∧ key.all (fun c => 0x20 ≤ c.toNat && c.toNat ≤ 0x7e && c ≠ '=') then .ok ()
  else .error .InvalidCommentFieldName

/-- `DiscreteCommentList`: an ordered list of key/value comment entries. -/
structure DiscreteCommentList where
  comments : List (List Char × List Char)
  deriving DecidableEq, Repr

namespace DiscreteCommentList

/-- `DiscreteCommentList::get_first`: value of the first entry whose key
matches case-insensitively. -/
def get_first (l : DiscreteCommentList) (key : List Char) : Option (List Char) :=
  (l.comments.find? (fun kv => keys_equal kv.1 key)).map (fun kv => kv.2)

/-- `DiscreteCommentList::push`: validate the key, then append the entry. -/
def push (l : DiscreteCommentList) (key value : List Char) :
    Except Error DiscreteCommentList :=
  match validate_comment_field_name key with
  | .error e => .error e
  | .ok _ => .ok ⟨l.comments ++ [(key, value)]⟩

/-- The `retain_mut` closure of `DiscreteCommentList::replace` with its
`found` flag made explicit: the first case-insensitive match has its value
overwritten in place; later matches are dropped; other entries are kept. -/
def replaceGo (key value : List Char) :
    List (List Char × List Char) → Bool → List (List Char × List Char) × Bool
  | [], found => ([], found)
  | (k, v) :: rest, found =>
    if keys_equal k key then
      if found then replaceGo key value rest found
      else
        let (r, f) := replaceGo key value rest true
        ((k, value) :: r, f)
    else
      let (r, f) := replaceGo key value rest found
      ((k, v) :: r, f)

/-- `DiscreteCommentList::replace`: run the `retain_mut` pass; if no entry
matched, append via `push` (which validates the key). -/
def replace (l : DiscreteCommentList) (key value : List Char) :
    Except Error DiscreteCommentList :=
  let (r, found) := replaceGo key value l.comments false
  if found then .ok ⟨r⟩ else DiscreteCommentList.push ⟨r⟩ key value

end DiscreteCommentList

theorem replaceGo_found (key value : List Char) (cs : List (List Char × List Char)) :
    DiscreteCommentList.replaceGo key value cs true
      = (cs.filter (fun kv => ! keys_equal kv.1 key), true) := by
  induction cs with
  | nil => rfl
  | cons kv rest ih =>
    obtain ⟨k, v⟩ := kv
    by_cases hk : keys_equal k key
    · simp [DiscreteCommentList.replaceGo, hk, List.filter_cons, ih]
    · simp only [Bool.not_eq_true] at hk
      simp [DiscreteCommentList.replaceGo, hk, List.filter_cons, ih]

theorem replaceGo_no_match (key value : List Char) (cs : List (List Char × List Char))
    (h : ∀ kv ∈ cs, keys_equal kv.1 key = false) :
    DiscreteCommentList.replaceGo key value cs false = (cs, false) := by
  induction cs with
  | nil => rfl
  | cons kv rest ih =>
    obtain ⟨k, v⟩ := kv
    have hk : keys_equal k key = false := h (k, v) (by simp)
    have := ih (fun kv hkv => h kv (by simp [hkv]))
    simp [DiscreteCommentList.replaceGo, hk, this]

theorem replaceGo_first_match (key value : List Char) (k0 v0 : List Char)
    (post : List (List Char × List Char)) (h0 : keys_equal k0 key = true) :
    ∀ pre : List (List Char × List Char), (∀ kv ∈ pre, keys_equal kv.1 key = false) →
      DiscreteCommentList.replaceGo key value (pre ++ (k0, v0) :: post) false
        = (pre ++ (k0, value) :: post.filter (fun kv => ! keys_equal kv.1 key), true) := by
  intro pre
  induction pre with
  | nil =>
    intro _
    simp [DiscreteCommentList.replaceGo, h0, replaceGo_found]
  | cons kv rest ih =>
    intro h
    obtain ⟨k, v⟩ := kv
    have hk : keys_equal k key = false := h (k, v) (by simp)
    have := ih (fun kv hkv => h kv (by simp [hkv]))
    simp [DiscreteCommentList.replaceGo, hk, this]

theorem exists_first_match (key : List Char) (cs : List (List Char × List Char))
    (h : ∃ kv ∈ cs, keys_equal kv.1 key = true) :
    ∃ pre k0 v0 post, cs = pre ++ (k0, v0) :: post ∧
      (∀ kv ∈ pre, keys_equal kv.1 key = false) ∧ keys_equal k0 key = true := by
  induction cs with
  | nil => simp at h
  | cons kv rest ih =>
    obtain ⟨k, v⟩ := kv
    by_cases hk : keys_equal k key = true
    · exact ⟨[], k, v, rest, by simp, by simp, hk⟩
    · have hrest : ∃ kv ∈ rest, keys_equal kv.1 key = true := by
        obtain ⟨kv2, hkv2, hkeq⟩ := h
        rcases List.mem_cons.mp hkv2 with rfl | hkv3
        · exact absurd hkeq hk
        · exact ⟨kv2, hkv3, hkeq⟩
      obtain ⟨pre, k0, v0, post, hcs, hpre, hk0⟩ := ih hrest
      refine ⟨(k, v) :: pre, k0, v0, post, by simp [hcs], ?_, hk0⟩
      intro kv2 hkv2
      rcases List.mem_cons.mp hkv2 with rfl | hkv3
      · simpa using hk
      · exact hpre kv2 hkv3

theorem keys_equal_refl (k : List Char) : keys_equal k k = true := by
  simp [keys_equal]

theorem find?_append_no_match {α : Type} (p : α → Bool) (pre xs : List α)
    (h : ∀ a ∈ pre, p a = false) : (pre ++ xs).find? p = xs.find? p := by
  induction pre with
  | nil => rfl
  | cons a rest ih =>
    have ha : p a = false := h a (by simp)
    have := ih (fun b hb => h b (by simp [hb]))
    simp [List.find?, ha, this]

/-- C5: after a successful `replace key value`, `get_first key` returns the
new value, exactly one entry matches the key case-insensitively, the
relative order of non-matching entries is preserved, the entry is appended
when nothing matched, and otherwise the first match is overwritten in place
with all later matches dropped. -/
theorem C5_replace_semantics (l l' : DiscreteCommentList) (key value : List Char)
    (h : l.replace key value = .ok l') :
    l'.get_first key = some value ∧
    (l'.comments.filter (fun kv => keys_equal kv.1 key)).length = 1 ∧
    l'.comments.filter (fun kv => ! keys_equal kv.1 key)
      = l.comments.filter (fun kv => ! keys_equal kv.1 key) ∧
    ((∀ kv ∈ l.comments, keys_equal kv.1 key = false) →
      l'.comments = l.comments ++ [(key, value)]) ∧
    ((∃ kv ∈ l.comments, keys_equal kv.1 key = true) →
      ∃ pre k0 v0 post, l.comments = pre ++ (k0, v0) :: post ∧
        (∀ kv ∈ pre, keys_equal kv.1 key = false) ∧ keys_equal k0 key = true ∧
        l'.comments = pre ++ (k0, value) :: post.filter (fun kv => ! keys_equal kv.1 key)) := by
  by_cases hex : ∃ kv ∈ l.comments, keys_equal kv.1 key = true
  · obtain ⟨pre, k0, v0, post, hcs, hpre, hk0⟩ := exists_first_match key l.comments hex
    have hgo := replaceGo_first_match key value k0 v0 post hk0 pre hpre
    have hrep : l.replace key value
        = .ok ⟨pre ++ (k0, value) :: post.filter (fun kv => ! keys_equal kv.1 key)⟩ := by
      unfold DiscreteCommentList.replace
      rw [hcs, hgo]
      rfl
    rw [hrep] at h
    have hl' : l'.comments = pre ++ (k0, value) :: post.filter (fun kv => ! keys_equal kv.1 key) := by
      cases h
      rfl
    have hprefalse : ∀ kv ∈ pre, (fun kv => keys_equal kv.1 key) kv = false := hpre
    refine ⟨?_, ?_, ?_, ?_, ?_⟩
    · unfold DiscreteCommentList.get_first
      rw [hl', find?_append_no_match _ pre _ hprefalse]
      simp [List.find?, hk0]
    · rw [hl', List.filter_append, List.filter_cons]
      have h1 : pre.filter (fun kv => keys_equal kv.1 key) = [] := by
        rw [List.filter_eq_nil_iff]
        intro kv hkv
        simp [hpre kv hkv]
      have h2 : (post.filter (fun kv => ! keys_equal kv.1 key)).filter
          (fun kv => keys_equal kv.1 key) = [] := by
        rw [List.filter_eq_nil_iff]
        intro kv hkv
        have := (List.mem_filter.mp hkv).2
        simp only [Bool.not_eq_true'] at this
        simp [this]
      simp [h1, h2, hk0]
    · rw [hl', hcs, List.filter_append, List.filter_append, List.filter_cons, List.filter_cons]
      have hk0n : (! keys_equal k0 key) = false := by simp [hk0]
      have hidem : (post.filter (fun kv => ! keys_equal kv.1 key)).filter
          (fun kv => ! keys_equal kv.1 key) = post.filter (fun kv => ! keys_equal kv.1 key) := by
        rw [List.filter_eq_self]
        intro kv hkv
        exact (List.mem_filter.mp hkv).2
      simp [hk0n, hidem]
    · intro hall
      have := hall (k0, v0) (by simp [hcs])
      rw [hk0] at this
      cases this
    · exact fun _ => ⟨pre, k0, v0, post, hcs, hpre, hk0, hl'⟩
  · have hall : ∀ kv ∈ l.comments, keys_equal kv.1 key = false := by
      intro kv hkv
      by_contra hne
      exact hex ⟨kv, hkv, by simpa using hne⟩
    have hgo := replaceGo_no_match key value l.comments hall
    have hrep : l.replace key value = DiscreteCommentList.push ⟨l.comments⟩ key value := by
      unfold DiscreteCommentList.replace
      rw [hgo]
      rfl
    rw [hrep] at h
    unfold DiscreteCommentList.push at h
    have hl' : l'.comments = l.comments ++ [(key, value)] := by
      cases hv : validate_comment_field_name key with
      | error e => rw [hv] at h; cases h
      | ok u => rw [hv] at h; cases h; rfl
    refine ⟨?_, ?_, ?_, fun _ => hl', ?_⟩
    · unfold DiscreteCommentList.get_first
      rw [hl', find?_append_no_match _ l.comments _ hall]
      simp [List.find?, keys_equal_refl]
    · rw [hl', List.filter_append]
      have h1 : l.comments.filter (fun kv => keys_equal kv.1 key) = [] := by
        rw [List.filter_eq_nil_iff]
        intro kv hkv
        simp [hall kv hkv]
      simp [h1, keys_equal_refl]
    · rw [hl', List.filter_append]
      simp [keys_equal_refl]
    · intro hex2
      exact absurd hex2 hex

/-- Witness for C5: replacing key `"a"` in the two-entry list
`[("A","1"), ("a","2")]` leaves the single entry `("A","9")`, whose value
`get_first` returns. -/
theorem C5_replace_semantics_witness :
    DiscreteCommentList.get_first ⟨[(['A'], ['9'])]⟩ ['a'] = some ['9'] :=
  (C5_replace_semantics ⟨[(['A'], ['1']), (['a'], ['2'])]⟩ ⟨[(['A'], ['9'])]⟩
    ['a'] ['9'] (by rfl)).1

/-! ## `-d` delete-pattern matching (`src/bin/opuscomment.rs`) -/

/-- Modelled from the spec: `parse_comment` of the crate's `opus` module (not
under `src/`).  Per §4.H it splits `KEY=VALUE` at the first `=` and validates
the key; it fails when there is no `=` or the key is invalid. -/
def parse_comment (comment : List Char) : Except Error (List Char × List Char) :=
  let key := comment.takeWhile (fun c => c ≠ '=')
  match comment.dropWhile (fun c => c ≠ '=') with
  | [] => .error .MissingCommentSeparator
  | _ :: value =>
    match validate_comment_field_name key with
    | .error e => .error e
    | .ok _ => .ok (key, value)

/-- `ValueMatch` of `opuscomment.rs`; the `HashSet` is embedded as a list, on
which `matches` tests membership exactly as `HashSet::contains` does. -/
inductive ValueMatch where
  | All
  | ContainedIn (values : List (List Char))
  deriving DecidableEq, Repr

/-- `ValueMatch::singleton`. -/
def ValueMatch.singleton (value : List Char) : ValueMatch := .ContainedIn [value]

/-- `ValueMatch::matches`: `All` matches any value; `ContainedIn` matches by
exact (case-sensitive) membership. -/
def ValueMatch.matches : ValueMatch → List Char → Bool
  | .All, _ => true
  | .ContainedIn values, value => values.contains value

/-- `BitOrAssign for ValueMatch`: `All` absorbs; two `ContainedIn` sets merge
into their union (the size-based swap in the source only chooses which
`HashSet` gets extended and does not affect membership). -/
def ValueMatch.or : ValueMatch → ValueMatch → ValueMatch
  | .ContainedIn lhs, .ContainedIn rhs => .ContainedIn (lhs ++ rhs)
  | _, _ => .All

/-- `KeyValueMatch` of `opuscomment.rs`: a `HashMap<String, ValueMatch>`
embedded as an association list.  Only `get` (exact, case-sensitive key
lookup) and `entry` are used on the map, so the embedding is faithful up to
iteration order, which the source never relies on. -/
structure KeyValueMatch where
  keys : List (List Char × ValueMatch)
  deriving DecidableEq, Repr

/-- `HashMap::get` on the embedded association list: exact key equality. -/
def kvLookup (m : List (List Char × ValueMatch)) (key : List Char) : Option ValueMatch :=
  (m.find? (fun kv => kv.1 == key)).map (fun kv => kv.2)

/-- `HashMap::entry(key).or_default() |= value` on the embedded list: merge
into the entry with this exact key, or insert the value (merging with the
default empty set is the identity). -/
def kvAddGo (key : List Char) (value : ValueMatch) :
    List (List Char × ValueMatch) → List (List Char × ValueMatch)
  | [] => [(key, value)]
  | (k, v) :: rest =>
    if k == key then (k, v.or value) :: rest else (k, v) :: kvAddGo key value rest

/-- `KeyValueMatch::add`. -/
def KeyValueMatch.add (m : KeyValueMatch) (key : List Char) (value : ValueMatch) :
    KeyValueMatch :=
  ⟨kvAddGo key value m.keys⟩

/-- `KeyValueMatch::matches`: look the entry key up **exactly** (HashMap
equality on `String`), then test the value matcher. -/
def KeyValueMatch.matches (m : KeyValueMatch) (key value : List Char) : Bool :=
  match kvLookup m.keys key with
  | none => false
  | some vm => vm.matches value

/-- The loop of `parse_delete_comment_args` of `opuscomment.rs` (with
`--escapes` off): each pattern parses as `KEY=VALUE` (exact-value matcher) or
else validates as a bare key (match-all-values matcher). -/
def parseDeleteGo (acc : KeyValueMatch) : List (List Char) → Except Error KeyValueMatch
  | [] => .ok acc
  | p :: rest =>
    match parse_comment p with
    | .ok (key, value) => parseDeleteGo (acc.add key (ValueMatch.singleton value)) rest
    | .error _ =>
      match validate_comment_field_name p with
      | .ok _ => parseDeleteGo (acc.add p .All) rest
      | .error e => .error e

/-- `parse_delete_comment_args` of `opuscomment.rs`, starting from the empty
(`Default`) matcher. -/
def parse_delete_comment_args (patterns : List (List Char)) : Except Error KeyValueMatch :=
  parseDeleteGo ⟨[]⟩ patterns

/-- The retain closure built by `main_impl` in append mode:
`|k, v| !delete_tags.matches(k, v)`. -/
def appendRetainClosure (delete_tags : KeyValueMatch) (k v : List Char) : Bool :=
  ! delete_tags.matches k v

/-- Modelled from the spec: `CommentHeader::retain` of the crate's `opus`
module (not under `src/`) applies the predicate to the comment entries in
place, preserving order (§4.H).  This is the entry-list effect of append
mode's delete patterns. -/
def applyDeleteRetain (m : KeyValueMatch) (entries : List (List Char × List Char)) :
    List (List Char × List Char) :=
  entries.filter (fun kv => appendRetainClosure m kv.1 kv.2)

/-- The matching relation asserted by the claim (case-insensitive on keys):
bare `KEY` matches any entry whose key equals it ignoring ASCII case;
`KEY=VALUE` matches ignoring ASCII case on the key and exactly on the value. -/
def DeletePattern.specMatches (p : List Char) (key value : List Char) : Bool :=
  match parse_comment p with
  | .ok (pk, pv) => keys_equal pk key && pv == value
  | .error _ => keys_equal p key

/-- The matching relation the code implements: exact (case-sensitive) key
equality; bare `KEY` matches any value; `KEY=VALUE` requires the exact value. -/
def DeletePattern.exactMatches (p : List Char) (key value : List Char) : Bool :=
  match parse_comment p with
  | .ok (pk, pv) => pk == key && pv == value
  | .error _ => p == key

/-- C3 counterexample: the claim requires the bare pattern `TITLE` to match
the entry `("Title", "x")` case-insensitively and so delete it, but the code's
`KeyValueMatch::matches` is a case-sensitive `HashMap` lookup, so append mode
retains the entry. -/
theorem C3_counterexample :
    DeletePattern.specMatches ['T', 'I', 'T', 'L', 'E'] ['T', 'i', 't', 'l', 'e'] ['x'] = true ∧
    parse_delete_comment_args [['T', 'I', 'T', 'L', 'E']]
      = .ok ⟨[(['T', 'I', 'T', 'L', 'E'], .All)]⟩ ∧
    KeyValueMatch.matches ⟨[(['T', 'I', 'T', 'L', 'E'], .All)]⟩ ['T', 'i', 't', 'l', 'e'] ['x']
      = false ∧
    applyDeleteRetain ⟨[(['T', 'I', 'T', 'L', 'E'], .All)]⟩ [(['T', 'i', 't', 'l', 'e'], ['x'])]
      = [(['T', 'i', 't', 'l', 'e'], ['x'])] := by
  refine ⟨by rfl, by rfl, by rfl, by rfl⟩

theorem ValueMatch.or_matches (a b : ValueMatch) (v : List Char) :
    (a.or b).matches v = (a.matches v || b.matches v) := by
  cases a <;> cases b <;> simp [ValueMatch.or, ValueMatch.matches]

theorem kvAdd_matches (m : KeyValueMatch) (key : List Char) (vm : ValueMatch)
    (k v : List Char) :
    (m.add key vm).matches k v = (m.matches k v || (key == k && vm.matches v)) := by
  obtain ⟨keys⟩ := m
  induction keys with
  | nil =>
    by_cases hk : key = k
    · simp [KeyValueMatch.add, kvAddGo, KeyValueMatch.matches, kvLookup, List.find?, hk]
    · have : (key == k) = false := by simpa using hk
      simp [KeyValueMatch.add, kvAddGo, KeyValueMatch.matches, kvLookup, List.find?, this]
  | cons e rest ih =>
    obtain ⟨ek, ev⟩ := e
    by_cases hek : ek = key
    · subst hek
      by_cases hk : ek = k
      · subst hk
        simp [KeyValueMatch.add, kvAddGo, KeyValueMatch.matches, kvLookup, List.find?,
          ValueMatch.or_matches]
      · have h1 : (ek == k) = false := by simpa using hk
        simp [KeyValueMatch.add, kvAddGo, KeyValueMatch.matches, kvLookup, List.find?, h1]
    · have h1 : (ek == key) = false := by simpa using hek
      by_cases hk : ek = k
      · subst hk
        have h2 : (key == ek) = false := by
          simpa using fun hkey => hek hkey.symm
        simp [KeyValueMatch.add, kvAddGo, KeyValueMatch.matches, kvLookup, List.find?, h1, h2]
      · have h2 : (ek == k) = false := by simpa using hk
        have := ih
        simp only [KeyValueMatch.add, kvAddGo, h1, if_false, KeyValueMatch.matches, kvLookup,
          List.find?, h2] at this ⊢
        simpa [h2] using this

theorem parseDeleteGo_matches (ps : List (List Char)) :
    ∀ acc m, parseDeleteGo acc ps = .ok m →
      ∀ k v, m.matches k v
        = (acc.matches k v || ps.any (fun p => DeletePattern.exactMatches p k v)) := by
  induction ps with
  | nil =>
    intro acc m h k v
    cases h
    simp [parseDeleteGo]
  | cons p rest ih =>
    intro acc m h k v
    simp only [parseDeleteGo] at h
    cases hp : parse_comment p with
    | ok kv =>
      obtain ⟨pk, pv⟩ := kv
      rw [hp] at h
      have := ih _ m h k v
      rw [this, kvAdd_matches]
      simp only [List.any_cons, DeletePattern.exactMatches, hp, ValueMatch.singleton,
        ValueMatch.matches]
      have hcont : ([pv].contains v) = (pv == v) := by
        by_cases hpv : pv = v
        · subst hpv; simp
        · have h1 : (pv == v) = false := by simpa using hpv
          have h2 : (v == pv) = false := by simpa using fun hv => hpv hv.symm
          simp only [List.contains_cons, List.contains_nil, Bool.or_false, h1, h2]
      rw [hcont]
      have hcomm : (pv == v) = (v == pv) := by
        by_cases hpv : pv = v
        · subst hpv; simp
        · have h1 : (pv == v) = false := by simpa using hpv
          have h2 : (v == pv) = false := by simpa using fun hv => hpv hv.symm
          rw [h1, h2]
      have hcommk : (pk == k) = (k == pk) := by
        by_cases hpk : pk = k
        · subst hpk; simp
        · have h1 : (pk == k) = false := by simpa using hpk
          have h2 : (k == pk) = false := by simpa using fun hv => hpk hv.symm
          rw [h1, h2]
      cases hacc : acc.matches k v <;> cases hb : (pk == k) <;>
        simp_all [Bool.or_assoc, Bool.or_comm, Bool.or_left_comm]
    | error e =>
      rw [hp] at h
      cases hv : validate_comment_field_name p with
      | error e2 => rw [hv] at h; cases h
      | ok u =>
        rw [hv] at h
        have := ih _ m h k v
        rw [this, kvAdd_matches]
        simp only [List.any_cons, DeletePattern.exactMatches, hp, ValueMatch.matches]
        cases hacc : acc.matches k v <;> cases hb : (p == k) <;>
          simp_all [Bool.or_assoc, Bool.or_comm, Bool.or_left_comm]

/-- C3 amended: in append mode an entry is removed exactly when some `-d`
pattern matches it with **exact (case-sensitive) key equality** — a bare
`KEY` pattern matches any entry with that exact key regardless of value, and
`KEY=VALUE` additionally requires the exact value. -/
theorem C3_delete_patterns_amended (ps : List (List Char)) (m : KeyValueMatch)
    (h : parse_delete_comment_args ps = .ok m) (entries : List (List Char × List Char)) :
    (∀ k v, m.matches k v = ps.any (fun p => DeletePattern.exactMatches p k v)) ∧
    applyDeleteRetain m entries
      = entries.filter (fun kv => ! ps.any (fun p => DeletePattern.exactMatches p kv.1 kv.2)) := by
  have hm : ∀ k v, m.matches k v = ps.any (fun p => DeletePattern.exactMatches p k v) := by
    intro k v
    have := parseDeleteGo_matches ps ⟨[]⟩ m h k v
    simpa [KeyValueMatch.matches, kvLookup, List.find?] using this
  refine ⟨hm, ?_⟩
  unfold applyDeleteRetain
  apply List.filter_congr
  intro kv _
  simp [appendRetainClosure, hm]

/-- Witness for the amended C3: deleting with patterns `A` and `a=y` from the
list `[("A","x"), ("a","y"), ("a","z")]` removes the exact-key matches and
keeps `("a","z")`. -/
theorem C3_delete_patterns_amended_witness :
    applyDeleteRetain ⟨[(['A'], .All), (['a'], .ContainedIn [['y']])]⟩
      [(['A'], ['x']), (['a'], ['y']), (['a'], ['z'])] = [(['a'], ['z'])] := by
  have h := (C3_delete_patterns_amended [['A'], ['a', '=', 'y']]
    ⟨[(['A'], .All), (['a'], .ContainedIn [['y']])]⟩ (by rfl)
    [(['A'], ['x']), (['a'], ['y']), (['a'], ['z'])]).2
  rw [h]
  rfl

/-! ## Opus identification header (`src/opus_header.rs`) -/

/-- `OPUS_MIN_HEADER_SIZE` of `opus_header.rs`. -/
def OPUS_MIN_HEADER_SIZE : Nat := 19

/-- `OPUS_MAGIC` of `opus_header.rs`: the bytes of `OpusHead`. -/
def OPUS_MAGIC : List Nat := [0x4f, 0x70, 0x75, 0x73, 0x48, 0x65, 0x61, 0x64]

/-- `OpusHeader::try_parse`: `Ok(None)` when the buffer is shorter than 19
bytes or its first 8 bytes are not the magic; otherwise `Ok(Some _)` with a
view over the buffer, embedded here as the byte list itself. -/
def OpusHeader.try_parse (data : List Nat) : Except Error (Option (List Nat)) :=
  if data.length < OPUS_MIN_HEADER_SIZE then .ok none
  else if data.take OPUS_MAGIC.length = OPUS_MAGIC then .ok (some data)
  else .ok none

/-- Modelled from the spec: `FixedPointGain::checked_add` (crate's `opus`
module, not under `src/`).  The gain wraps an `i16`, embedded as an integer
in `[-32768, 32767]`; per §4.A `checked_add` returns `None` exactly when the
mathematical sum leaves that range. -/
def FixedPointGain.checked_add (a b : Int) : Option Int :=
  if -32768 ≤ a + b ∧ a + b ≤ 32767 then some (a + b) else none

/-- Little-endian signed 16-bit decode of two bytes (`get_output_gain` reads
bytes 16..18 this way). -/
def decode_i16_le (b0 b1 : Nat) : Int :=
  let u : Nat := b0 + 256 * b1
  if u < 32768 then (u : Int) else (u : Int) - 65536

/-- `OpusHeader::get_output_gain`: the signed little-endian 16-bit value at
bytes 16..18. -/
def OpusHeader.get_output_gain (data : List Nat) : Int :=
  decode_i16_le (data.getD 16 0) (data.getD 17 0)

/-- Little-endian signed 16-bit encode: the two's-complement byte pair. -/
def encode_i16_le (g : Int) : Nat × Nat :=
  let u : Nat := (g % 65536).toNat
  (u % 256, u / 256)

/-- `OpusHeader::set_output_gain`: overwrite bytes 16..18 with the
little-endian encoding of the gain. -/
def OpusHeader.set_output_gain (data : List Nat) (g : Int) : List Nat :=
  (data.set 16 (encode_i16_le g).1).set 17 (encode_i16_le g).2

/-- `OpusHeader::adjust_output_gain`: `checked_add` the delta onto the
current gain; on overflow fail with `GainOutOfBounds`, leaving the buffer
untouched; otherwise store the sum.  The pair carries the buffer after the
call together with the call's result. -/
def OpusHeader.adjust_output_gain (data : List Nat) (adjustment : Int) :
    List Nat × Except Error Unit :=
  match FixedPointGain.checked_add (OpusHeader.get_output_gain data) adjustment with
  | none => (data, .error .GainOutOfBounds)
  | some g => (OpusHeader.set_output_gain data g, .ok ())

theorem decode_encode_i16 (g : Int) (h1 : -32768 ≤ g) (h2 : g ≤ 32767) :
    decode_i16_le (encode_i16_le g).1 (encode_i16_le g).2 = g := by
  unfold decode_i16_le encode_i16_le
  have hnn : 0 ≤ g % 65536 := Int.emod_nonneg g (by norm_num)
  have hlt : g % 65536 < 65536 := Int.emod_lt_of_pos g (by norm_num)
  have huc : (((g % 65536).toNat : Nat) : Int) = g % 65536 := Int.toNat_of_nonneg hnn
  have hsum : (g % 65536).toNat % 256 + 256 * ((g % 65536).toNat / 256) = (g % 65536).toNat :=
    Nat.mod_add_div ((g % 65536).toNat) 256
  simp only [hsum]
  have hmod : g % 65536 = g ∨ g % 65536 = g + 65536 := by omega
  split_ifs with hcase <;> omega

theorem getD_set_pair (data : List Nat) (h : 19 ≤ data.length) (b0 b1 : Nat) :
    ((data.set 16 b0).set 17 b1).getD 16 0 = b0 ∧
      ((data.set 16 b0).set 17 b1).getD 17 0 = b1 := by
  have h16 : 16 < data.length := by omega
  have h17 : 17 < (data.set 16 b0).length := by simpa using by omega
  constructor
  · rw [List.getD_eq_getElem?_getD]
    rw [List.getElem?_set_ne (by omega)]
    rw [List.getElem?_set_self h16]
    rfl
  · rw [List.getD_eq_getElem?_getD]
    rw [List.getElem?_set_self h17]
    rfl

theorem get_set_output_gain (data : List Nat) (h : 19 ≤ data.length) (g : Int)
    (h1 : -32768 ≤ g) (h2 : g ≤ 32767) :
    OpusHeader.get_output_gain (OpusHeader.set_output_gain data g) = g := by
  unfold OpusHeader.get_output_gain OpusHeader.set_output_gain
  obtain ⟨hg16, hg17⟩ := getD_set_pair data h (encode_i16_le g).1 (encode_i16_le g).2
  rw [hg16, hg17]
  exact decode_encode_i16 g h1 h2

/-- C8: `adjust_output_gain` fails with `GainOutOfBounds` exactly when the
checked `i16` addition of the current gain and the delta overflows, leaving
the bytes unchanged in that case; on success the stored little-endian gain at
bytes 16..18 is the old gain plus the delta. -/
theorem C8_adjust_output_gain (data : List Nat) (delta : Int)
    (hlen : 19 ≤ data.length) :
    ((OpusHeader.adjust_output_gain data delta).2 = .error Error.GainOutOfBounds
       ↔ ¬ (-32768 ≤ OpusHeader.get_output_gain data + delta ∧
             OpusHeader.get_output_gain data + delta ≤ 32767)) ∧
    ((OpusHeader.adjust_output_gain data delta).2 = .error Error.GainOutOfBounds →
       (OpusHeader.adjust_output_gain data delta).1 = data) ∧
    ((-32768 ≤ OpusHeader.get_output_gain data + delta ∧
        OpusHeader.get_output_gain data + delta ≤ 32767) →
       OpusHeader.get_output_gain (OpusHeader.adjust_output_gain data delta).1
         = OpusHeader.get_output_gain data + delta) := by
  by_cases hrange : -32768 ≤ OpusHeader.get_output_gain data + delta ∧
      OpusHeader.get_output_gain data + delta ≤ 32767
  · have hadj : OpusHeader.adjust_output_gain data delta
        = (OpusHeader.set_output_gain data (OpusHeader.get_output_gain data + delta), .ok ()) := by
      unfold OpusHeader.adjust_output_gain FixedPointGain.checked_add
      rw [if_pos hrange]
    rw [hadj]
    refine ⟨by simp [hrange], by simp, fun _ => ?_⟩
    exact get_set_output_gain data hlen _ hrange.1 hrange.2
  · have hadj : OpusHeader.adjust_output_gain data delta
        = (data, .error Error.GainOutOfBounds) := by
      unfold OpusHeader.adjust_output_gain FixedPointGain.checked_add
      rw [if_neg hrange]
    rw [hadj]
    exact ⟨by simp [hrange], fun _ => rfl, fun hr => absurd hr hrange⟩

/-- Witness for C8 on a concrete 19-byte header with gain 0x7FFF and delta 1
(overflow) — the error branch of the theorem at an explicit input. -/
theorem C8_adjust_output_gain_witness :
    (OpusHeader.adjust_output_gain
        [0x4f, 0x70, 0x75, 0x73, 0x48, 0x65, 0x61, 0x64,
         1, 2, 0, 0, 0, 0, 0, 0, 0xff, 0x7f, 0] 1).2
      = .error Error.GainOutOfBounds := by
  have h := (C8_adjust_output_gain
      [0x4f, 0x70, 0x75, 0x73, 0x48, 0x65, 0x61, 0x64,
       1, 2, 0, 0, 0, 0, 0, 0, 0xff, 0x7f, 0] 1 (by norm_num)).1
  rw [h]
  decide

/-! ## Stream rewriter (`src/header_rewriter.rs`) -/

/-- The `ogg` crate's `Packet`, restricted to the fields the rewriter reads:
data bytes, stream serial, absolute granule position and page flags. -/
structure Packet where
  data : List Nat
  stream_serial : Nat
  absgp_page : Nat
  last_in_page : Bool
  last_in_stream : Bool
  deriving DecidableEq, Repr

/-- `PacketWriteEndInfo` of the `ogg` crate. -/
inductive PacketWriteEndInfo where
  | EndStream
  | EndPage
  | NormalPacket
  deriving DecidableEq, Repr

/-- One `write_packet` call on the underlying `PacketWriter`; the writer is
embedded as the list of these records, in call order. -/
structure WriteRec where
  data : List Nat
  serial : Nat
  info : PacketWriteEndInfo
  granule : Nat
  deriving DecidableEq, Repr

/-- `State` of `header_rewriter.rs`. -/
inductive RWState where
  | AwaitingHeader
  | AwaitingComments
  | Forwarding
  deriving DecidableEq, Repr

/-- `SubmitResult` of `header_rewriter.rs`; `HeadersChanged before after`
embeds `HeadersChanged { from, to }`. -/
inductive SubmitResult (S : Type) where
  | Good
  | HeadersUnchanged (s : S)
  | HeadersChanged (before after : S)
  deriving DecidableEq, Repr

/-- The `OpusTags` magic bytes. -/
def OPUS_TAGS_MAGIC : List Nat := [0x4f, 0x70, 0x75, 0x73, 0x54, 0x61, 0x67, 0x73]

/-- Little-endian `u32` read from the head of a byte list. -/
def readU32LE : List Nat → Option (Nat × List Nat)
  | b0 :: b1 :: b2 :: b3 :: rest =>
    some (b0 + 256 * b1 + 65536 * b2 + 16777216 * b3, rest)
  | _ => none

/-- One length-delimited comment entry body: it must contain a `=` and its
key (the bytes before the first `=`) must be non-empty with every byte in
`0x20..=0x7E`. -/
def validEntryBytes (bytes : List Nat) : Bool :=
  let key := bytes.takeWhile (fun b => b ≠ 0x3d)
  bytes.any (fun b => b = 0x3d) && !key.isEmpty && key.all (fun b => 0x20 ≤ b && b ≤ 0x7e)

/-- The declared-count entry loop of the comment-header parser; bytes left
after the last entry are the framing tail and are accepted. -/
def validEntryList : Nat → List Nat → Bool
  | 0, _ => true
  | n + 1, bytes =>
    match readU32LE bytes with
    | none => false
    | some (len, rest) =>
      if len ≤ rest.length then
        validEntryBytes (rest.take len) && validEntryList n (rest.drop len)
      else false

/-- Modelled from the spec: `CommentHeader::try_parse` of the crate's `opus`
module (not under `src/`), restricted to validity — §3's strict layout:
`OpusTags` magic (mismatch yields `Ok(None)`), length-prefixed vendor,
`u32` entry count, each entry length-prefixed `KEY=VALUE` with a valid key;
any layout violation is `MalformedCommentHeader`; trailing bytes are the
framing tail and are preserved. -/
def CommentHeader.try_parse (data : List Nat) : Except Error (Option Unit) :=
  if data.take 8 ≠ OPUS_TAGS_MAGIC then .ok none
  else
    match readU32LE (data.drop 8) with
    | none => .error .MalformedCommentHeader
    | some (vlen, rest) =>
      if vlen ≤ rest.length then
        match readU32LE (rest.drop vlen) with
        | none => .error .MalformedCommentHeader
        | some (count, rest2) =>
          if validEntryList count rest2 then .ok (some ()) else .error .MalformedCommentHeader
      else .error .MalformedCommentHeader

/-- A `HeaderRewrite` transform, embedded at the byte level: `summarize`
reads the two header buffers; `rewriteFn` produces the mutated bytes of
both.  By the codec laws of §4.D (serialization reproduces the input bytes
when no mutation occurred, and parsing a serialized header gives the header
back), equality of the parsed views coincides with byte equality, so the
byte level is a faithful embedding of the mutable views passed to
`rewrite`. -/
structure HeaderRewrite (S : Type) where
  summarize : List Nat → List Nat → Except Error S
  rewriteFn : List Nat → List Nat → Except Error (List Nat × List Nat)

/-- A failed `submit`: a returned `Err`, or a Rust panic (`expect`). -/
inductive Failure where
  | rustError (e : Error)
  | rustPanic
  deriving DecidableEq, Repr

/-- `HeaderRewriter` of `header_rewriter.rs`.  `written` is the record of
`write_packet` calls on the underlying packet writer, which is assumed not
to fail (the `WriteError` path is never taken by a non-failing sink). -/
structure HeaderRewriter (S : Type) where
  hr : HeaderRewrite S
  header_packet : Option Packet
  state : RWState
  packet_queue : List Packet
  written : List WriteRec

/-- The `PacketWriteEndInfo` derivation inside the drain loop of `submit`. -/
def deriveEndInfo (p : Packet) : PacketWriteEndInfo :=
  if p.last_in_stream then .EndStream
  else if p.last_in_page then .EndPage
  else .NormalPacket

/-- The write issued for one drained packet: its data, its original stream
serial, the derived end info, and its absolute granule position. -/
def mkWriteRec (p : Packet) : WriteRec :=
  ⟨p.data, p.stream_serial, deriveEndInfo p, p.absgp_page⟩

/-- The `while let` drain loop at the end of `submit`: pop every queued
packet in order and write it. -/
def drainQueue {S : Type} (rs : HeaderRewriter S) : HeaderRewriter S :=
  { rs with packet_queue := [], written := rs.written ++ rs.packet_queue.map mkWriteRec }

/-- `HeaderRewriter::submit`.  The `AwaitingComments` arm `return`s before
the drain loop runs; the other two arms fall through to it. -/
def submit {S : Type} (rs : HeaderRewriter S) (packet : Packet) :
    Except Failure (SubmitResult S × HeaderRewriter S) :=
  match rs.state with
  | .AwaitingHeader =>
    .ok (.Good, drainQueue { rs with header_packet := some packet, state := .AwaitingComments })
  | .Forwarding =>
    .ok (.Good, drainQueue { rs with packet_queue := rs.packet_queue ++ [packet] })
  | .AwaitingComments =>
    match rs.header_packet with
    | none => .error .rustPanic
    | some opus_header_packet =>
      match OpusHeader.try_parse opus_header_packet.data with
      | .error e => .error (.rustError e)
      | .ok none => .error (.rustError Error.MissingOpusStream)
      | .ok (some _) =>
        match CommentHeader.try_parse packet.data with
        | .ok none => .error (.rustError Error.MissingCommentHeader)
        | .error e => .error (.rustError e)
        | .ok (some _) =>
          match rs.hr.summarize opus_header_packet.data packet.data with
          | .error e => .error (.rustError e)
          | .ok summary_before =>
            match rs.hr.rewriteFn opus_header_packet.data packet.data with
            | .error e => .error (.rustError e)
            | .ok (od, cd) =>
              match rs.hr.summarize od cd with
              | .error e => .error (.rustError e)
              | .ok summary_after =>
                match OpusHeader.try_parse opus_header_packet.data,
                    CommentHeader.try_parse packet.data with
                | .ok (some _), .ok (some _) =>
                  .ok ((if od ≠ opus_header_packet.data ∨ cd ≠ packet.data then
                          .HeadersChanged summary_before summary_after
                        else .HeadersUnchanged summary_before),
                    { rs with
                      header_packet := none,
                      packet_queue := rs.packet_queue ++
                        [{ opus_header_packet with data := od }, { packet with data := cd }],
                      state := .Forwarding })
                | _, _ => .error .rustPanic

/-- A valid 19-byte Opus identification header: magic, version 1, 2
channels, zeroed pre-skip, input sample rate, output gain and mapping
family. -/
def exOpusHeaderBytes : List Nat :=
  [0x4f, 0x70, 0x75, 0x73, 0x48, 0x65, 0x61, 0x64, 1, 2, 0, 0, 0, 0, 0, 0, 0, 0, 0]

/-- A minimal valid comment header: magic, empty vendor, zero entries. -/
def exCommentHeaderBytes : List Nat :=
  [0x4f, 0x70, 0x75, 0x73, 0x54, 0x61, 0x67, 0x73, 0, 0, 0, 0, 0, 0, 0, 0]

/-- A transform that changes nothing: summaries are `()`, the rewrite
returns both buffers unmodified (the comment transform with the `NoChange`
action behaves this way). -/
def trivialRewrite : HeaderRewrite Unit :=
  ⟨fun _ _ => .ok (), fun o c => .ok (o, c)⟩

/-- The identification-header packet of the example stream. -/
def exOpusPacket : Packet := ⟨exOpusHeaderBytes, 7, 0, false, false⟩

/-- The comment-header packet of the example stream. -/
def exCommentPacket : Packet := ⟨exCommentHeaderBytes, 7, 0, true, false⟩

/-- An audio packet of the example stream. -/
def exAudioPacket : Packet := ⟨[0xfc, 1, 2], 7, 960, true, false⟩

/-- The rewriter right before the comment-header call: the first packet is
buffered and the state is `AwaitingComments`. -/
def exRS : HeaderRewriter Unit :=
  ⟨trivialRewrite, some exOpusPacket, .AwaitingComments, [], []⟩

/-- The rewriter right after the comment-header call: the two header packets
are still queued, nothing is written. -/
def exRS2 : HeaderRewriter Unit :=
  ⟨trivialRewrite, none, .Forwarding, [exOpusPacket, exCommentPacket], []⟩

/-- C1: on the comment-header call — both headers parsed, the transform's
summaries and rewrite succeeded — `submit` returns
`HeadersUnchanged summary_before` exactly when both post-rewrite buffers are
byte-for-byte equal to the re-parsed original copies, and otherwise
`HeadersChanged` from the pre-rewrite summary to the post-rewrite summary;
the two rewritten header packets are queued and the state advances. -/
theorem C1_changed_detection (S : Type) (rs : HeaderRewriter S) (p hp : Packet)
    (od cd : List Nat) (sb sa : S)
    (hstate : rs.state = .AwaitingComments) (hhp : rs.header_packet = some hp)
    (hopus : OpusHeader.try_parse hp.data = .ok (some hp.data))
    (hcomment : CommentHeader.try_parse p.data = .ok (some ()))
    (hsb : rs.hr.summarize hp.data p.data = .ok sb)
    (hrw : rs.hr.rewriteFn hp.data p.data = .ok (od, cd))
    (hsa : rs.hr.summarize od cd = .ok sa) :
    submit rs p = .ok
      ((if od = hp.data ∧ cd = p.data then .HeadersUnchanged sb else .HeadersChanged sb sa),
        { rs with
          header_packet := none,
          packet_queue := rs.packet_queue ++ [{ hp with data := od }, { p with data := cd }],
          state := .Forwarding }) := by
  simp only [submit, hstate, hhp, hopus, hcomment, hsb, hrw, hsa]
  by_cases hch : od = hp.data ∧ cd = p.data
  · have hnot : ¬ (od ≠ hp.data ∨ cd ≠ p.data) := by
      push_neg
      exact ⟨hch.1, hch.2⟩
    rw [if_neg hnot, if_pos hch]
  · have hor : od ≠ hp.data ∨ cd ≠ p.data := by
      by_contra hcon
      push_neg at hcon
      exact hch ⟨hcon.1, hcon.2⟩
    rw [if_pos hor, if_neg hch]

/-- Witness for C1: the trivial transform on the example stream leaves both
headers byte-identical, so the comment-header call reports
`HeadersUnchanged`. -/
theorem C1_changed_detection_witness :
    submit exRS exCommentPacket = .ok (.HeadersUnchanged (), exRS2) := by
  have h := C1_changed_detection Unit exRS exCommentPacket exOpusPacket
    exOpusPacket.data exCommentPacket.data () ()
    rfl rfl (by rfl) (by rfl) (by rfl) (by rfl) (by rfl)
  simpa [exRS, exRS2] using h

/-- C2 counterexample: on the comment-header call `submit` returns
successfully while the two (rewritten) header packets are still in the
pending-emission FIFO and nothing has been written — the `return` in the
`AwaitingComments` arm precedes the drain loop. -/
theorem C2_counterexample :
    submit exRS exCommentPacket = .ok (.HeadersUnchanged (), exRS2) ∧
    exRS2.packet_queue = [exOpusPacket, exCommentPacket] ∧
    exRS2.packet_queue ≠ [] ∧
    exRS2.written = [] ∧
    exRS.written = [] := by
  refine ⟨by rfl, by rfl, by simp [exRS2], by rfl, by rfl⟩

/-- C2 amended: `submit` drains the FIFO before returning on every call that
returns `Good` (the first-header call and every forwarding call); the
comment-header call instead returns with the two rewritten header packets
still queued and nothing newly written — they are emitted during the next
`submit`. -/
theorem C2_drain_amended (S : Type) (rs : HeaderRewriter S) (p : Packet) :
    (rs.state = .AwaitingHeader →
      ∀ r rs2, submit rs p = .ok (r, rs2) →
        r = .Good ∧ rs2.packet_queue = [] ∧
        rs2.written = rs.written ++ rs.packet_queue.map mkWriteRec) ∧
    (rs.state = .Forwarding →
      ∀ r rs2, submit rs p = .ok (r, rs2) →
        r = .Good ∧ rs2.packet_queue = [] ∧
        rs2.written = rs.written ++ (rs.packet_queue ++ [p]).map mkWriteRec) ∧
    (rs.state = .AwaitingComments →
      ∀ r rs2, submit rs p = .ok (r, rs2) →
        rs2.written = rs.written ∧
        ∃ hp od cd, rs.header_packet = some hp ∧
          rs2.packet_queue = rs.packet_queue ++ [{ hp with data := od }, { p with data := cd }]) := by
  refine ⟨?_, ?_, ?_⟩
  · intro hst r rs2 h
    simp only [submit, hst] at h
    cases h
    exact ⟨rfl, rfl, rfl⟩
  · intro hst r rs2 h
    simp only [submit, hst] at h
    cases h
    exact ⟨rfl, rfl, by simp [drainQueue]⟩
  · intro hst r rs2 h
    cases hhp : rs.header_packet with
    | none => simp only [submit, hst, hhp] at h; exact Except.noConfusion h
    | some hp =>
      simp only [submit, hst, hhp] at h
      cases hop : OpusHeader.try_parse hp.data with
      | error e => simp only [hop] at h; exact Except.noConfusion h
      | ok o =>
        cases o with
        | none => simp only [hop] at h; exact Except.noConfusion h
        | some v =>
          simp only [hop] at h
          cases hcm : CommentHeader.try_parse p.data with
          | error e => simp only [hcm] at h; exact Except.noConfusion h
          | ok o2 =>
            cases o2 with
            | none => simp only [hcm] at h; exact Except.noConfusion h
            | some v2 =>
              simp only [hcm] at h
              cases hsb : rs.hr.summarize hp.data p.data with
              | error e => simp only [hsb] at h; exact Except.noConfusion h
              | ok sb =>
                simp only [hsb] at h
                cases hrw : rs.hr.rewriteFn hp.data p.data with
                | error e => simp only [hrw] at h; exact Except.noConfusion h
                | ok odcd =>
                  obtain ⟨od, cd⟩ := odcd
                  simp only [hrw] at h
                  cases hsa : rs.hr.summarize od cd with
                  | error e => simp only [hsa] at h; exact Except.noConfusion h
                  | ok sa =>
                    simp only [hsa, Except.ok.injEq, Prod.mk.injEq] at h
                    obtain ⟨hr2, hrs2⟩ := h
                    subst hrs2
                    exact ⟨rfl, hp, od, cd, rfl, rfl⟩

/-- Witness for the amended C2 at the example stream: the first forwarding
call emits the two queued header packets followed by the audio packet and
leaves the queue empty. -/
theorem C2_drain_amended_witness :
    (.Good : SubmitResult Unit) = .Good ∧
    (drainQueue { exRS2 with packet_queue := exRS2.packet_queue ++ [exAudioPacket] }).packet_queue
      = [] ∧
    (drainQueue { exRS2 with packet_queue := exRS2.packet_queue ++ [exAudioPacket] }).written
      = exRS2.written ++ (exRS2.packet_queue ++ [exAudioPacket]).map mkWriteRec :=
  (C2_drain_amended Unit exRS2 exAudioPacket).2.1 rfl .Good
    (drainQueue { exRS2 with packet_queue := exRS2.packet_queue ++ [exAudioPacket] }) (by rfl)

/-- C4: in the forwarding state `submit` returns `Good` and the writer
receives, in submission order, any still-queued packets followed by exactly
the submitted packet's data with its original stream serial, its absolute
granule position, and end info `EndStream` / `EndPage` / `NormalPacket`
according to its flags; the queue is left empty and the state stays
`Forwarding`. -/
theorem C4_forwarding_passthrough (S : Type) (rs : HeaderRewriter S) (p : Packet)
    (hstate : rs.state = .Forwarding) :
    submit rs p = .ok (.Good,
      { rs with
        packet_queue := [],
        written := rs.written ++ rs.packet_queue.map mkWriteRec ++
          [⟨p.data, p.stream_serial, deriveEndInfo p, p.absgp_page⟩] }) ∧
    deriveEndInfo p = (if p.last_in_stream then .EndStream
      else if p.last_in_page then .EndPage else .NormalPacket) := by
  constructor
  · simp only [submit, hstate]
    unfold drainQueue
    simp [mkWriteRec, List.append_assoc]
  · rfl

/-- Witness for C4: the first forwarding call on the example stream writes
the two pending header packets and then the audio packet with its own
serial, granule and derived end info. -/
theorem C4_forwarding_passthrough_witness :
    submit exRS2 exAudioPacket = .ok (.Good,
      { exRS2 with
        packet_queue := [],
        written := exRS2.written ++ exRS2.packet_queue.map mkWriteRec ++
          [⟨exAudioPacket.data, exAudioPacket.stream_serial, deriveEndInfo exAudioPacket,
            exAudioPacket.absgp_page⟩] }) :=
  (C4_forwarding_passthrough Unit exRS2 exAudioPacket rfl).1

/-- C10: `OpusHeader::try_parse` returns `Ok(None)` — not an error or a
panic — on every buffer shorter than 19 bytes, even one that is a proper
prefix of a valid header beginning with the `OpusHead` magic, and the
rewriter consequently fails with `MissingOpusStream` on the comment-header
call whenever the buffered first packet is shorter than 19 bytes. -/
theorem C10_short_first_packet (S : Type) (rs : HeaderRewriter S) (p hp : Packet)
    (hstate : rs.state = .AwaitingComments) (hhp : rs.header_packet = some hp)
    (hshort : hp.data.length < 19) :
    (∀ data : List Nat, data.length < 19 → OpusHeader.try_parse data = .ok none) ∧
    OpusHeader.try_parse (OPUS_MAGIC ++ [1, 2, 0]) = .ok none ∧
    submit rs p = .error (.rustError Error.MissingOpusStream) := by
  have hparse : ∀ data : List Nat, data.length < 19 → OpusHeader.try_parse data = .ok none := by
    intro data hlen
    unfold OpusHeader.try_parse
    rw [if_pos]
    exact hlen
  refine ⟨hparse, hparse _ (by simp [OPUS_MAGIC]), ?_⟩
  simp only [submit, hstate, hhp, hparse hp.data hshort]

/-- Witness for C10: a rewriter whose buffered first packet is a 12-byte
`OpusHead`-prefixed buffer fails with `MissingOpusStream`. -/
theorem C10_short_first_packet_witness :
    submit ⟨trivialRewrite, some ⟨OPUS_MAGIC ++ [1, 2, 0], 7, 0, false, false⟩,
        .AwaitingComments, [], []⟩ exCommentPacket
      = .error (.rustError Error.MissingOpusStream) :=
  (C10_short_first_packet Unit
    ⟨trivialRewrite, some ⟨OPUS_MAGIC ++ [1, 2, 0], 7, 0, false, false⟩,
      .AwaitingComments, [], []⟩
    exCommentPacket ⟨OPUS_MAGIC ++ [1, 2, 0], 7, 0, false, false⟩
    rfl rfl (by simp [OPUS_MAGIC])).2.2

/-! ## Loudness analyzer decode state (`src/volume_analyzer.rs`) -/

/-- `DecodeState` of `volume_analyzer.rs`, restricted to what `get_windows`
reads: the channel count and each channel's accumulated 100 ms power
windows.  The external `bs1770` meter and Opus decoder are abstracted: a
decoded packet extends every channel's meter by the same number of windows
(each channel receives exactly `num_decoded_samples` samples).  `Power`
values are embedded as rationals; the claims concern only the choice of
scale factor and the reachability of the panic branch, neither of which
depends on floating-point rounding. -/
structure DecodeState where
  channel_count : Nat
  sample_rate : Nat
  channel_windows : List (List ℚ)

/-- `DecodeState::new`: one channel is mono, two is stereo, and every other
count is rejected with `InvalidChannelCount` before any decode state
exists; one (empty) meter per channel is built. -/
def DecodeState.new (channel_count sample_rate : Nat) : Except Error DecodeState :=
  match channel_count with
  | 1 => .ok ⟨1, sample_rate, List.replicate 1 []⟩
  | 2 => .ok ⟨2, sample_rate, List.replicate 2 []⟩
  | n => .error (.InvalidChannelCount n)

/-- `power_scale_factor` of `DecodeState::get_windows`; `none` embeds the
`panic!` branch for any other channel count. -/
def power_scale_factor : Nat → Option ℚ
  | 1 => some 2
  | 2 => some 1
  | _ => none

/-- `DecodeState::get_windows`: pick the scale factor (panicking on an
unsupported channel count), read the window count off channel 0 (panicking
when there are no channels), assert all channels have equal window counts,
then per window sum the channels' powers and scale the sum.  `none` embeds
the panics. -/
def DecodeState.get_windows (ds : DecodeState) : Option (List ℚ) :=
  match power_scale_factor ds.channel_count with
  | none => none
  | some scale =>
    match ds.channel_windows with
    | [] => none
    | w0 :: rest =>
      if rest.all (fun w => w.length == w0.length) then
        some ((List.range w0.length).map (fun i =>
          scale * (ds.channel_windows.map (fun w => w.getD i 0)).sum))
      else none

/-- The decode states reachable through the public `VolumeAnalyzer`
interface: created by `DecodeState::new` from the header's channel count,
then grown only by `push_packet`, which feeds every channel's meter the
same number of samples and hence the same number of new windows. -/
inductive DecodeState.Reachable : DecodeState → Prop where
  | fromNew (channel_count sample_rate : Nat) (ds : DecodeState)
      (h : DecodeState.new channel_count sample_rate = .ok ds) : Reachable ds
  | push (ds : DecodeState) (k : Nat) (ws : List (List ℚ))
      (hlen : ws.length = ds.channel_windows.length)
      (hk : ∀ w ∈ ws, w.length = k) (h : Reachable ds) :
      Reachable { ds with
        channel_windows := List.zipWith (fun w e => w ++ e) ds.channel_windows ws }

theorem zipWith_append_win_lengths (n k : Nat) :
    ∀ ws1 ws2 : List (List ℚ), (∀ w ∈ ws1, w.length = n) → (∀ w ∈ ws2, w.length = k) →
      ∀ w ∈ List.zipWith (fun w e => w ++ e) ws1 ws2, w.length = n + k := by
  intro ws1
  induction ws1 with
  | nil => intro ws2 _ _ w hw; simp at hw
  | cons a rest ih =>
    intro ws2 h1 h2 w hw
    cases ws2 with
    | nil => simp at hw
    | cons b rest2 =>
      simp only [List.zipWith_cons_cons, List.mem_cons] at hw
      rcases hw with rfl | hw
      · rw [List.length_append, h1 a (by simp), h2 b (by simp)]
      · exact ih rest2 (fun w hw2 => h1 w (by simp [hw2]))
          (fun w hw2 => h2 w (by simp [hw2])) w hw

theorem reachable_invariant (ds : DecodeState) (h : ds.Reachable) :
    (ds.channel_count = 1 ∨ ds.channel_count = 2) ∧
    ds.channel_windows.length = ds.channel_count ∧
    ∃ n, ∀ w ∈ ds.channel_windows, w.length = n := by
  induction h with
  | fromNew c sr ds h =>
    match c, h with
    | 1, h =>
      simp only [DecodeState.new, Except.ok.injEq] at h
      subst h
      exact ⟨Or.inl rfl, rfl, 0, by simp⟩
    | 2, h =>
      simp only [DecodeState.new, Except.ok.injEq] at h
      subst h
      exact ⟨Or.inr rfl, rfl, 0, by simp⟩
  | push ds k ws hlen hk h ih =>
    obtain ⟨hc, hl, n, hn⟩ := ih
    refine ⟨hc, ?_, n + k, ?_⟩
    · simpa [List.length_zipWith, hlen] using hl
    · exact zipWith_append_win_lengths n k ds.channel_windows ws hn hk

/-- C9: on every decode state reachable through the public interface,
`get_windows` does not panic: the channel count is 1 or 2, so the scale
factor is 2 for mono and 1 for stereo, and the result sums the per-channel
powers of each 100 ms window and scales the sum by that factor. -/
theorem C9_channel_scaling (ds : DecodeState) (h : ds.Reachable) :
    (ds.channel_count = 1 ∨ ds.channel_count = 2) ∧
    power_scale_factor ds.channel_count
      = some (if ds.channel_count = 1 then (2 : ℚ) else 1) ∧
    ∃ n, ds.get_windows
      = some ((List.range n).map (fun i =>
          (if ds.channel_count = 1 then (2 : ℚ) else 1) *
            (ds.channel_windows.map (fun w => w.getD i 0)).sum)) := by
  obtain ⟨hc, hl, n, hn⟩ := reachable_invariant ds h
  have hscale : power_scale_factor ds.channel_count
      = some (if ds.channel_count = 1 then (2 : ℚ) else 1) := by
    rcases hc with hc | hc <;> rw [hc] <;> rfl
  refine ⟨hc, hscale, ?_⟩
  cases hw : ds.channel_windows with
  | nil =>
    exfalso
    rw [hw] at hl
    rcases hc with hc | hc <;> rw [hc] at hl <;> simp at hl
  | cons w0 rest =>
    refine ⟨w0.length, ?_⟩
    have hall : rest.all (fun w => w.length == w0.length) = true := by
      rw [List.all_eq_true]
      intro w hwmem
      have h1 : w.length = n := hn w (by rw [hw]; exact List.mem_cons_of_mem _ hwmem)
      have h2 : w0.length = n := hn w0 (by rw [hw]; exact List.mem_cons_self _ _)
      simp [h1, h2]
    unfold DecodeState.get_windows
    rw [hscale, hw]
    simp [hall]

/-- Witness for C9: a freshly constructed mono decode state is reachable
and its scale factor is 2. -/
theorem C9_channel_scaling_witness :
    power_scale_factor ((⟨1, 48000, [[]]⟩ : DecodeState).channel_count) = some 2 := by
  have h := (C9_channel_scaling ⟨1, 48000, [[]]⟩
    (DecodeState.Reachable.fromNew 1 48000 ⟨1, 48000, [[]]⟩ (by rfl))).2.1
  simpa using h

end Zoog
